import Mathlib

/-!
Verification of the konstruktor worker-pool engine.

The Go sources are shallowly embedded as Lean definitions:
* `Task`, `Result` mirror the records in `model/model.go` / `worker/worker.go`
  (a Go `*big.Int` becomes `Option ℤ`, `none` standing for the nil pointer,
  since `big.Int` is exact integer arithmetic);
* `calcFactorial` embeds `utils.CalcFactorial` / `worker.calcFactorial`
  (guard for negative input, then the multiply loop `for i := 1; i <= n; i++`);
* `calculateAverageProcessingTime`, `updateProcessingTimes`, `processOne`
  embed the body of `Worker.Start` from `worker/worker.go` (durations are
  nanosecond counts, modelled as ℕ; Go integer division on non-negative
  `time.Duration` values is ℕ division);
* `placeResults` / `SortResults` embed `worker.SortResults`; the `Option`
  is `none` exactly when the Go code would panic with an index out of
  range, and `sort.SliceStable` becomes the stable `List.mergeSort`;
* `generateLoop` / `GenerateTasks` embed `GenerateTasks`, with the stream
  of `rand.Intn(998)` draws abstracted as an arbitrary sequence reduced
  mod 998 (the contract of `Intn`);
* `runWorker` embeds the `select`-loop of `Worker.Start` (the variant with
  a quit channel): the scheduler is abstracted as the list of channel
  events the worker observes, and the returned counter counts the
  `wg.Done()` calls (the single deferred call runs when `Start` returns);
* `runPool` embeds the per-worker history field of `worker/worker.go`,
  while `globalHistAfter` embeds the package-global `processingTimes`
  variable of the `part_003` snapshot, with each sample tagged (ghost
  information) by the id of the worker that recorded it.
-/

namespace Konstruktor

/-- Task record: unique id and the value whose factorial is requested. -/
structure Task where
  id : ℤ
  value : ℤ
deriving DecidableEq, Repr

/-- Result record: the processed task and the factorial outcome.
`none` models a nil `*big.Int` (the Go zero value, never produced by a
worker); `some k` models a pointer to the big integer `k`. -/
structure Result where
  task : Task
  factorial : Option ℤ
deriving DecidableEq, Repr

/-- The Go zero value of `Result`: zero task id, zero value, nil pointer. -/
def zeroResult : Result := ⟨⟨0, 0⟩, none⟩

/-- The constant `maxProcessingTimesToTrack` from `worker/worker.go`. -/
def maxProcessingTimesToTrack : ℕ := 20

/-- The multiply loop of `calcFactorial`: `result := 1; for i := 1; i <= n; i++ { result.Mul(result, i) }`. -/
def factLoop (n : ℕ) : ℤ :=
  (List.range n).foldl (fun (acc : ℤ) (j : ℕ) => acc * ((j : ℤ) + 1)) 1

/-- Embeds `utils.CalcFactorial` (identical to `worker.calcFactorial`):
returns 0 for negative input, otherwise runs the multiply loop. -/
def calcFactorial (n : ℤ) : ℤ :=
  if n < 0 then 0 else factLoop n.toNat

theorem factLoop_succ (m : ℕ) : factLoop (m + 1) = factLoop m * ((m : ℤ) + 1) := by
  unfold factLoop
  rw [List.range_succ, List.foldl_append, List.foldl_cons, List.foldl_nil]

theorem factLoop_eq_factorial (n : ℕ) : factLoop n = (Nat.factorial n : ℤ) := by
  induction n with
  | zero => rfl
  | succ m ih =>
      rw [factLoop_succ, ih, Nat.factorial_succ]
      push_cast
      ring

theorem factLoop_pos (n : ℕ) : 1 ≤ factLoop n := by
  rw [factLoop_eq_factorial]
  exact_mod_cast Nat.one_le_iff_ne_zero.mpr (Nat.factorial_ne_zero n)

theorem calcFactorial_nonneg_ne_zero (n : ℤ) (hn : 0 ≤ n) : calcFactorial n ≠ 0 := by
  unfold calcFactorial
  rw [if_neg (not_lt.mpr hn)]
  have := factLoop_pos n.toNat
  omega

/-- Embeds `Worker.calculateAverageProcessingTime`: sum of the recorded
durations divided by their number, 0 when no duration is recorded. -/
def calculateAverageProcessingTime (ts : List ℕ) : ℕ :=
  if ts.length = 0 then 0 else ts.sum / ts.length

/-- Embeds `Worker.updateProcessingTimes`: when the history has reached
`mt` samples the oldest (head) is dropped, then the new sample is
appended at the end. -/
def updateProcessingTimes (mt : ℕ) (ts : List ℕ) (d : ℕ) : List ℕ :=
  (if mt ≤ ts.length then ts.tail else ts) ++ [d]

/-- Embeds the per-task body of `Worker.Start` in `worker/worker.go`:
compute the factorial, read the average of the history as it was before
this task, record the measured duration `d`, and override the outcome
with `big.NewInt(0)` exactly when
`processingTime > 0 && averageTime > 0 && processingTime > averageTime + averageTime/10`. -/
def processOne (mt : ℕ) (t : Task) (d : ℕ) (ts : List ℕ) : Result × List ℕ :=
  let result := calcFactorial t.value
  let avg := calculateAverageProcessingTime ts
  let ts' := updateProcessingTimes mt ts d
  let threshold := avg + avg / 10
  if 0 < d ∧ 0 < avg ∧ threshold < d then
    (⟨t, some 0⟩, ts')
  else
    (⟨t, some result⟩, ts')

/-- History reached by starting from the empty history and recording the
durations `ds` in order. -/
def histAfter (mt : ℕ) (ds : List ℕ) : List ℕ :=
  ds.foldl (updateProcessingTimes mt) []

/-- C8: the compute function is pure and deterministic; it returns `n!`
for every `n ≥ 0` (in particular `0! = 1` and `7! = 5040`) and the
defined sentinel 0 for every negative input. Determinism is inherent:
`calcFactorial` is a function of its argument alone. -/
theorem calcFactorial_correct (n : ℤ) :
    (0 ≤ n → calcFactorial n = (Nat.factorial n.toNat : ℤ)) ∧
    (n < 0 → calcFactorial n = 0) ∧
    calcFactorial 0 = 1 ∧ calcFactorial 7 = 5040 := by
  refine ⟨fun h => ?_, fun h => ?_, ?_, ?_⟩
  · unfold calcFactorial
    rw [if_neg (not_lt.mpr h), factLoop_eq_factorial]
  · unfold calcFactorial
    rw [if_pos h]
  · decide
  · decide

/-- Witness for C8 at the concrete inputs 7 and 0. -/
theorem calcFactorial_correct_witness :
    calcFactorial 7 = (Nat.factorial (7 : ℤ).toNat : ℤ) :=
  (calcFactorial_correct 7).1 (by decide)

theorem threshold_iff (avg d : ℕ) :
    (0 < d ∧ 0 < avg ∧ avg + avg / 10 < d) ↔ (0 < avg ∧ 11 * avg < 10 * d) := by
  omega

/-- C1: the outcome is the anomaly sentinel (value 0) iff
`d > 0 ∧ avg > 0 ∧ d > avg + avg/10` with `avg` the integer mean of the
history before `d` is inserted; this coincides with `avg > 0 ∧ d > avg * 1.1`
(stated exactly as `11*avg < 10*d`); when `d ≤ avg * 1.1` the outcome
is the genuine computed value, and with an empty history (`avg = 0`)
the outcome is the genuine computed value, never the sentinel. The
hypothesis `0 ≤ t.value` holds for every task the program processes,
whose values lie in `[3, 1000]`. -/
theorem anomaly_decision (mt : ℕ) (t : Task) (d : ℕ) (ts : List ℕ)
    (hv : 0 ≤ t.value) :
    ((processOne mt t d ts).1.factorial = some 0 ↔
      (0 < d ∧ 0 < calculateAverageProcessingTime ts ∧
        calculateAverageProcessingTime ts + calculateAverageProcessingTime ts / 10 < d)) ∧
    ((processOne mt t d ts).1.factorial = some 0 ↔
      (0 < calculateAverageProcessingTime ts ∧
        11 * calculateAverageProcessingTime ts < 10 * d)) ∧
    (calculateAverageProcessingTime ts = 0 →
      (processOne mt t d ts).1.factorial = some (calcFactorial t.value) ∧
      (processOne mt t d ts).1.factorial ≠ some 0) ∧
    (¬ (0 < calculateAverageProcessingTime ts ∧
        11 * calculateAverageProcessingTime ts < 10 * d) →
      (processOne mt t d ts).1.factorial = some (calcFactorial t.value)) := by
  have hne : calcFactorial t.value ≠ 0 := calcFactorial_nonneg_ne_zero t.value hv
  unfold processOne
  by_cases hc : 0 < d ∧ 0 < calculateAverageProcessingTime ts ∧
      calculateAverageProcessingTime ts + calculateAverageProcessingTime ts / 10 < d
  · rw [if_pos hc]
    refine ⟨by simpa using hc, by simpa using (threshold_iff _ d).mp hc,
      fun h0 => absurd h0 (by omega),
      fun hn => absurd ((threshold_iff _ d).mp hc) hn⟩
  · rw [if_neg hc]
    have h2 : ¬ (0 < calculateAverageProcessingTime ts ∧
        11 * calculateAverageProcessingTime ts < 10 * d) := by
      intro h
      exact hc ((threshold_iff _ d).mpr h)
    refine ⟨by simpa [hne] using hc, by simpa [hne] using h2,
      fun _ => ⟨rfl, by simp [hne]⟩, fun _ => rfl⟩

/-- Witness for C1: worker with history `[1, 1]` (average 1 ns),
task value 3, measured duration 100 ns: the outcome is the sentinel. -/
theorem anomaly_decision_witness :
    (processOne 20 ⟨0, 3⟩ 100 [1, 1]).1.factorial = some 0 :=
  (anomaly_decision 20 ⟨0, 3⟩ 100 [1, 1] (by decide)).1.mpr (by decide)

theorem histAfter_append (mt : ℕ) (ds : List ℕ) (d : ℕ) :
    histAfter mt (ds ++ [d]) = updateProcessingTimes mt (histAfter mt ds) d := by
  unfold histAfter
  rw [List.foldl_append, List.foldl_cons, List.foldl_nil]

theorem histAfter_eq_drop (mt : ℕ) (hmt : 0 < mt) (ds : List ℕ) :
    histAfter mt ds = ds.drop (ds.length - mt) := by
  induction ds using List.reverseRecOn with
  | nil => simp [histAfter]
  | append_singleton ds d ih =>
      rw [histAfter_append, ih]
      unfold updateProcessingTimes
      by_cases hlen : ds.length < mt
      · rw [if_neg (by simp [List.length_drop]; omega)]
        have h0 : ds.length - mt = 0 := by omega
        have h1 : (ds ++ [d]).length - mt = 0 := by simp; omega
        rw [h0, h1, List.drop_zero, List.drop_zero]
      · rw [if_pos (by simp [List.length_drop]; omega)]
        rw [List.tail_drop]
        have h2 : (ds ++ [d]).length - mt = (ds.length - mt) + 1 := by simp; omega
        rw [h2, List.drop_append_of_le_length (by omega)]

/-- C3: starting from the empty history, after recording any sequence of
durations `ds` with capacity `K ≥ 1` (default 20), the history is the
last `K` of them, so its length never exceeds `K`; after `K+1`
insertions the history is exactly the tail of `ds` (the first-inserted
sample was the single sample evicted, so it is absent when it does not
reoccur later), and the most recent sample always sits at the end. -/
theorem history_bounded_fifo (K : ℕ) (hK : 0 < K) (ds : List ℕ) :
    histAfter K ds = ds.drop (ds.length - K) ∧
    (histAfter K ds).length ≤ K ∧
    (ds.length = K + 1 → histAfter K ds = ds.tail) ∧
    (∀ ds' d, ds = ds' ++ [d] → (histAfter K ds).getLast? = some d) ∧
    (ds.length = K + 1 → ∀ d0, ds.head? = some d0 → d0 ∉ ds.tail →
      d0 ∉ histAfter K ds) := by
  have hdrop := histAfter_eq_drop K hK ds
  have htail : ds.length = K + 1 → histAfter K ds = ds.tail := by
    intro hlen
    rw [hdrop, hlen]
    simp [List.drop_one]
  refine ⟨hdrop, ?_, htail, ?_, ?_⟩
  · rw [hdrop, List.length_drop]
    omega
  · intro ds' d hds
    subst hds
    rw [histAfter_append]
    unfold updateProcessingTimes
    exact List.getLast?_concat _
  · intro hlen d0 _ hnotin
    rw [htail hlen]
    exact hnotin

/-- Witness for C3: capacity 2, three insertions evict the first sample. -/
theorem history_bounded_fifo_witness :
    histAfter 2 [10, 20, 30] = List.tail [10, 20, 30] :=
  (history_bounded_fifo 2 (by decide) [10, 20, 30]).2.2.1 (by decide)

/-- Embeds the loop body of `GenerateTasks`: task `i` carries the value
`rand.Intn(998) + 3`; the stream of `Intn` draws is abstracted as an
arbitrary sequence `randSeq`, reduced mod 998 exactly as `Intn`'s
contract guarantees a draw in `[0, 998)`. -/
def generateLoop (randSeq : ℕ → ℕ) : ℕ → ℕ → List Task
  | _, 0 => []
  | i, n + 1 =>
      ⟨(i : ℤ), ((randSeq i % 998 + 3 : ℕ) : ℤ)⟩ :: generateLoop randSeq (i + 1) n

/-- Embeds `GenerateTasks`: emit `numTasks` tasks in id order, then close
the channel (the boolean component records that `close(tasks)` ran). -/
def GenerateTasks (numTasks : ℕ) (randSeq : ℕ → ℕ) : List Task × Bool :=
  (generateLoop randSeq 0 numTasks, true)

theorem generateLoop_map_id (r : ℕ → ℕ) (n : ℕ) : ∀ i : ℕ,
    (generateLoop r i n).map Task.id = (List.range' i n).map (fun (k : ℕ) => (k : ℤ)) := by
  induction n with
  | zero => intro i; rfl
  | succ m ih =>
      intro i
      rw [generateLoop, List.range'_succ, List.map_cons, List.map_cons, ih (i + 1)]

theorem generateLoop_value_bounds (r : ℕ → ℕ) (n : ℕ) : ∀ i : ℕ,
    ∀ t ∈ generateLoop r i n, 3 ≤ t.value ∧ t.value ≤ 1000 := by
  induction n with
  | zero => intro i t ht; simp [generateLoop] at ht
  | succ m ih =>
      intro i t ht
      rw [generateLoop] at ht
      rcases List.mem_cons.mp ht with h | h
      · subst h
        have hm : r i % 998 < 998 := Nat.mod_lt _ (by omega)
        constructor
        · show (3 : ℤ) ≤ ((r i % 998 + 3 : ℕ) : ℤ)
          exact_mod_cast Nat.le_add_left 3 _
        · show ((r i % 998 + 3 : ℕ) : ℤ) ≤ 1000
          exact_mod_cast by omega
      · exact ih (i + 1) t h

/-- C7: for every `N ≥ 0`, `GenerateTasks` emits exactly `N` tasks whose
ids are the dense strictly increasing sequence `0, …, N-1`, each value
lies in `[3, 1000]`, and the channel is closed after the last task. -/
theorem generateTasks_correct (N : ℕ) (randSeq : ℕ → ℕ) :
    (GenerateTasks N randSeq).1.length = N ∧
    (GenerateTasks N randSeq).1.map Task.id = (List.range N).map (fun (k : ℕ) => (k : ℤ)) ∧
    (∀ t ∈ (GenerateTasks N randSeq).1, 3 ≤ t.value ∧ t.value ≤ 1000) ∧
    (GenerateTasks N randSeq).2 = true := by
  have hmap : (GenerateTasks N randSeq).1.map Task.id
      = (List.range N).map (fun (k : ℕ) => (k : ℤ)) := by
    rw [List.range_eq_range']
    exact generateLoop_map_id randSeq N 0
  refine ⟨?_, hmap, generateLoop_value_bounds randSeq N 0, rfl⟩
  have := congrArg List.length hmap
  simpa using this

/-- Channel events a worker can observe in its `select` loop: a task
received (together with the duration its processing will measure), the
tasks channel observed closed, or the quit signal observed. -/
inductive WEvent where
  | task : Task → ℕ → WEvent
  | closed : WEvent
  | quit : WEvent
deriving DecidableEq, Repr

/-- An event is terminal when it makes `Start` return: a closed tasks
channel or a quit signal. -/
def isTerminal : WEvent → Bool
  | .task _ _ => false
  | .closed => true
  | .quit => true

/-- Embeds the `select` loop of `Worker.Start` (the quit-channel
variant): the worker consumes the observed channel events in order; a
task event runs the per-task body and loops with the updated history,
while a closed tasks channel or a quit signal makes `Start` return,
which runs the single deferred `wg.Done()` — counted by the second
component. Events after the first terminal one are never examined. -/
def runWorker (mt : ℕ) : List ℕ → List WEvent → List Result × ℕ
  | _, [] => ([], 0)
  | hist, .task t d :: evs =>
      ((processOne mt t d hist).1 :: (runWorker mt (processOne mt t d hist).2 evs).1,
       (runWorker mt (processOne mt t d hist).2 evs).2)
  | _, .closed :: _ => ([], 1)
  | _, .quit :: _ => ([], 1)

theorem runWorker_no_terminal (mt : ℕ) : ∀ (evs : List WEvent) (hist : List ℕ),
    (∀ x ∈ evs, isTerminal x = false) →
    (runWorker mt hist evs).2 = 0 ∧ (runWorker mt hist evs).1.length = evs.length := by
  intro evs
  induction evs with
  | nil => exact fun hist _ => ⟨rfl, rfl⟩
  | cons x evs ih =>
      intro hist h
      have hx : isTerminal x = false := h x (List.mem_cons_self x evs)
      cases x with
      | task t d =>
          have hrest := ih (processOne mt t d hist).2
            (fun y hy => h y (List.mem_cons_of_mem _ hy))
          rw [runWorker]
          exact ⟨hrest.1, by simpa using hrest.2⟩
      | closed => simp [isTerminal] at hx
      | quit => simp [isTerminal] at hx

theorem runWorker_terminal (mt : ℕ) (e : WEvent) (he : isTerminal e = true) :
    ∀ (pre : List WEvent) (hist : List ℕ) (post : List WEvent),
    (∀ x ∈ pre, isTerminal x = false) →
    runWorker mt hist (pre ++ e :: post) = runWorker mt hist (pre ++ [e]) ∧
    (runWorker mt hist (pre ++ e :: post)).2 = 1 ∧
    (runWorker mt hist (pre ++ e :: post)).1.length = pre.length := by
  intro pre
  induction pre with
  | nil =>
      intro hist post _
      cases e with
      | task t d => simp [isTerminal] at he
      | closed => exact ⟨rfl, rfl, rfl⟩
      | quit => exact ⟨rfl, rfl, rfl⟩
  | cons x pre ih =>
      intro hist post h
      have hx : isTerminal x = false := h x (List.mem_cons_self x pre)
      cases x with
      | task t d =>
          have hrest := ih (processOne mt t d hist).2 post
            (fun y hy => h y (List.mem_cons_of_mem _ hy))
          rw [List.cons_append, List.cons_append, runWorker, runWorker]
          refine ⟨?_, by simpa using hrest.2.1, by simpa using hrest.2.2⟩
          rw [hrest.1]
      | closed => simp [isTerminal] at hx
      | quit => simp [isTerminal] at hx

/-- C5: once a worker observes end-of-stream (tasks channel closed) or
the quit signal — whichever comes first in its observed event order —
it processes no further task (events after the first terminal event are
ignored: the run is unchanged by anything following it, and exactly the
tasks before it are processed), and on either exit path it reports
completion via `wg.Done()` exactly once; while no terminal event has
been observed, no completion is reported. -/
theorem worker_exit_protocol (mt : ℕ) (hist : List ℕ) (pre : List WEvent)
    (e : WEvent) (post : List WEvent)
    (hpre : ∀ x ∈ pre, isTerminal x = false) (he : isTerminal e = true) :
    runWorker mt hist (pre ++ e :: post) = runWorker mt hist (pre ++ [e]) ∧
    (runWorker mt hist (pre ++ e :: post)).2 = 1 ∧
    (runWorker mt hist (pre ++ e :: post)).1.length = pre.length ∧
    (∀ evs : List WEvent, (∀ x ∈ evs, isTerminal x = false) →
      (runWorker mt hist evs).2 = 0) := by
  have h := runWorker_terminal mt e he pre hist post hpre
  exact ⟨h.1, h.2.1, h.2.2, fun evs hevs => (runWorker_no_terminal mt evs hist hevs).1⟩

/-- Witness for C5: a worker that sees one task, then the quit signal,
then one more pending task, reports completion exactly once and ignores
the pending task. -/
theorem worker_exit_protocol_witness :
    (runWorker 20 [] ([WEvent.task ⟨0, 3⟩ 1] ++ WEvent.quit ::
      [WEvent.task ⟨1, 3⟩ 1])).2 = 1 :=
  (worker_exit_protocol 20 [] [WEvent.task ⟨0, 3⟩ 1] WEvent.quit
    [WEvent.task ⟨1, 3⟩ 1] (by decide) (by decide)).2.1

/-- Embeds the per-worker history field of `worker/worker.go`: the pool
state maps each worker id to its own `processingTimes` slice, and the
processing event `(w, d)` (worker `w` measured duration `d`) updates
only worker `w`'s slice. -/
def stepPool (mt : ℕ) (s : ℕ → List ℕ) (e : ℕ × ℕ) : ℕ → List ℕ :=
  Function.update s e.1 (updateProcessingTimes mt (s e.1) e.2)

/-- Pool state after a run, i.e. after an arbitrary interleaving of
processing events, starting from all-empty histories. -/
def runPool (mt : ℕ) (events : List (ℕ × ℕ)) : ℕ → List ℕ :=
  events.foldl (stepPool mt) (fun _ => [])

theorem foldl_stepPool (mt : ℕ) (w : ℕ) : ∀ (events : List (ℕ × ℕ)) (s : ℕ → List ℕ),
    (events.foldl (stepPool mt) s) w =
      ((events.filter (fun e => e.1 == w)).map Prod.snd).foldl
        (updateProcessingTimes mt) (s w) := by
  intro events
  induction events with
  | nil => intro s; rfl
  | cons e events ih =>
      intro s
      rw [List.foldl_cons]
      by_cases he : e.1 = w
      · rw [ih, List.filter_cons_of_pos (by simpa using he), List.map_cons,
          List.foldl_cons]
        have hs : stepPool mt s e w = updateProcessingTimes mt (s w) e.2 := by
          unfold stepPool
          subst he
          rw [Function.update_same]
        rw [hs]
      · rw [ih, List.filter_cons_of_neg (by simpa using he)]
        have hs : stepPool mt s e w = s w := by
          unfold stepPool
          exact Function.update_noteq (fun hw => he hw.symm) _ s
        rw [hs]

theorem mem_updateProcessingTimes (mt : ℕ) (ts : List ℕ) (d x : ℕ)
    (hx : x ∈ updateProcessingTimes mt ts d) : x ∈ ts ∨ x = d := by
  unfold updateProcessingTimes at hx
  rcases List.mem_append.mp hx with h | h
  · split at h
    · exact Or.inl (List.mem_of_mem_tail h)
    · exact Or.inl h
  · exact Or.inr (by simpa using h)

theorem mem_foldl_updateProcessingTimes (mt : ℕ) : ∀ (ds s : List ℕ) (x : ℕ),
    x ∈ ds.foldl (updateProcessingTimes mt) s → x ∈ s ∨ x ∈ ds := by
  intro ds
  induction ds with
  | nil => intro s x h; exact Or.inl h
  | cons d ds ih =>
      intro s x h
      rcases ih (updateProcessingTimes mt s d) x h with h1 | h1
      · rcases mem_updateProcessingTimes mt s d x h1 with h2 | h2
        · exact Or.inl h2
        · exact Or.inr (by simp [h2])
      · exact Or.inr (List.mem_cons_of_mem _ h1)

/-- Amended C4 (the per-worker variant): in `worker/worker.go`, where
`processingTimes` is a field of the `Worker` struct, a run of the pool
leaves each worker `w` with exactly the history built from `w`'s own
processing events, so `w`'s history only ever contains durations of
tasks `w` itself processed — no other worker's events touch it. This
exclusivity fails for the `part_003` snapshot, whose history is a
package-global shared by all workers. -/
theorem pool_history_ownership (mt : ℕ) (events : List (ℕ × ℕ)) (w : ℕ) :
    runPool mt events w =
      histAfter mt ((events.filter (fun e => e.1 == w)).map Prod.snd) ∧
    ∀ d ∈ runPool mt events w, ∃ e ∈ events, e.1 = w ∧ e.2 = d := by
  have hrun : runPool mt events w =
      histAfter mt ((events.filter (fun e => e.1 == w)).map Prod.snd) :=
    foldl_stepPool mt w events (fun _ => [])
  refine ⟨hrun, fun d hd => ?_⟩
  rw [hrun] at hd
  rcases mem_foldl_updateProcessingTimes mt _ [] d hd with h | h
  · simp at h
  · rcases List.mem_map.mp h with ⟨e, he, hde⟩
    rcases List.mem_filter.mp he with ⟨hmem, hw⟩
    exact ⟨e, hmem, by simpa using hw, hde⟩

/-- Embeds the package-global `processingTimes` of the `part_003`
snapshot: one history shared by every worker, mutated through the same
`updateProcessingTimes` logic. Each sample carries a ghost tag (not
stored by the Go code) naming the worker that recorded it. -/
def updateTagged (mt : ℕ) (ts : List (ℕ × ℕ)) (e : ℕ × ℕ) : List (ℕ × ℕ) :=
  (if mt ≤ ts.length then ts.tail else ts) ++ [e]

/-- Shared global history after a run of tagged processing events,
starting from the empty history (`part_003` model). -/
def globalHistAfter (mt : ℕ) (events : List (ℕ × ℕ)) : List (ℕ × ℕ) :=
  events.foldl (updateTagged mt) []

/-- Counterexample to C4 on the `part_003` snapshot: after worker 0
records a single 5 ns sample, the history that worker 1 reads (the same
package-global slice) contains worker 0's sample, and worker 1's
`calculateAverageProcessingTime` returns 5 — not the 0 an empty private
history would give. So a worker's history is read by other workers and
holds samples of tasks it did not process. -/
theorem global_history_shared_counterexample :
    (0, 5) ∈ globalHistAfter 20 [(0, 5)] ∧
    calculateAverageProcessingTime ((globalHistAfter 20 [(0, 5)]).map Prod.snd) = 5 := by
  decide

/-- Comparison used by the `sort.SliceStable` call in `SortResults`:
order by task id (results with equal ids keep their relative order,
which is what a stable sort by the strict `<` comparator does). -/
def resultLE (a b : Result) : Bool := a.task.id ≤ b.task.id

/-- Embeds the placement loop of `SortResults`:
`for r := range results { sortedResult[r.Task.ID] = r }`. The value is
`none` exactly when the Go slice write would panic with an index out of
range, i.e. when some received id lies outside `[0, len(sortedResult))`. -/
def placeResults : List Result → List Result → Option (List Result)
  | [], acc => some acc
  | r :: rest, acc =>
      if 0 ≤ r.task.id ∧ r.task.id < (acc.length : ℤ) then
        placeResults rest (acc.set r.task.id.toNat r)
      else none

/-- Embeds `worker.SortResults`: allocate `len` zero-valued results,
fill by task id, then stably sort by task id. -/
def SortResults (results : List Result) (len : ℕ) : Option (List Result) :=
  (placeResults results (List.replicate len zeroResult)).map
    (fun l => l.mergeSort resultLE)

theorem placeResults_none_iff : ∀ (results acc : List Result),
    (placeResults results acc = none ↔
      ∃ r ∈ results, ¬(0 ≤ r.task.id ∧ r.task.id < (acc.length : ℤ))) := by
  intro results
  induction results with
  | nil => intro acc; simp [placeResults]
  | cons r rest ih =>
      intro acc
      by_cases hr : 0 ≤ r.task.id ∧ r.task.id < (acc.length : ℤ)
      · rw [placeResults, if_pos hr, ih]
        simp only [List.length_set]
        constructor
        · rintro ⟨x, hx, h⟩
          exact ⟨x, List.mem_cons_of_mem _ hx, h⟩
        · rintro ⟨x, hx, h⟩
          rcases List.mem_cons.mp hx with rfl | hx'
          · exact absurd hr h
          · exact ⟨x, hx', h⟩
      · rw [placeResults, if_neg hr]
        exact ⟨fun _ => ⟨r, List.mem_cons_self r rest, hr⟩, fun _ => rfl⟩

/-- Amended C6: the Collector fails loudly (Go panic, modelled as
`none`) exactly when some received Result has a task id outside
`[0, N)`. The other protocol violations are silently absorbed: a
duplicate id overwrites the earlier result, and receiving fewer (or,
with in-range ids, more) than `N` results still yields a slice. -/
theorem sortResults_panic_iff (results : List Result) (N : ℕ) :
    SortResults results N = none ↔
      ∃ r ∈ results, r.task.id < 0 ∨ (N : ℤ) ≤ r.task.id := by
  unfold SortResults
  rw [Option.map_eq_none', placeResults_none_iff]
  simp only [List.length_replicate]
  constructor
  · rintro ⟨r, hr, h⟩
    exact ⟨r, hr, by omega⟩
  · rintro ⟨r, hr, h⟩
    exact ⟨r, hr, by omega⟩

/-- Counterexample to C6: a duplicate task id is not a loud failure —
with expected count 2 and two results both carrying id 0, `SortResults`
returns a slice (the second result has overwritten the first, and
position 1 still holds the zero value); nothing panics. -/
theorem sortResults_silent_duplicate :
    SortResults [⟨⟨0, 3⟩, some 6⟩, ⟨⟨0, 4⟩, some 24⟩] 2
      = some [⟨⟨0, 4⟩, some 24⟩, zeroResult] := by
  have h1 : placeResults [⟨⟨0, 3⟩, some 6⟩, ⟨⟨0, 4⟩, some 24⟩]
      (List.replicate 2 zeroResult) = some [⟨⟨0, 4⟩, some 24⟩, zeroResult] := by
    decide
  have hsorted : List.Pairwise (fun a b => resultLE a b = true)
      [(⟨⟨0, 4⟩, some 24⟩ : Result), zeroResult] := by
    refine List.Pairwise.cons ?_ (List.pairwise_singleton _ _)
    intro b hb
    rw [List.mem_singleton.mp hb]
    decide
  unfold SortResults
  rw [h1, Option.map_some', List.mergeSort_of_sorted hsorted]

theorem placeResults_sound : ∀ (results acc : List Result),
    (∀ r ∈ results, 0 ≤ r.task.id ∧ r.task.id < (acc.length : ℤ)) →
    (results.map (fun r => r.task.id)).Nodup →
    ∃ out, placeResults results acc = some out ∧
      out.length = acc.length ∧
      (∀ r ∈ results, out[r.task.id.toNat]? = some r) ∧
      (∀ i : ℕ, (∀ r ∈ results, r.task.id.toNat ≠ i) → out[i]? = acc[i]?) ∧
      (∀ x ∈ out, x ∈ acc ∨ x ∈ results) := by
  intro results
  induction results with
  | nil =>
      intro acc _ _
      exact ⟨acc, rfl, rfl, by simp, fun i _ => rfl, fun x hx => Or.inl hx⟩
  | cons r rest ih =>
      intro acc hrange hnodup
      have hr := hrange r (List.mem_cons_self r rest)
      have hlenset : (acc.set r.task.id.toNat r).length = acc.length :=
        List.length_set acc _ r
      rw [List.map_cons] at hnodup
      have hnotin := (List.nodup_cons.mp hnodup).1
      obtain ⟨out, hplace, hlen, hget, huntouched, hmem⟩ :=
        ih (acc.set r.task.id.toNat r)
          (fun x hx => by
            rw [hlenset]
            exact hrange x (List.mem_cons_of_mem _ hx))
          (List.nodup_cons.mp hnodup).2
      have hfresh : ∀ x ∈ rest, x.task.id.toNat ≠ r.task.id.toNat := by
        intro x hx heq
        have hx0 : 0 ≤ x.task.id := (hrange x (List.mem_cons_of_mem _ hx)).1
        have hxr : x.task.id = r.task.id := by omega
        exact hnotin (hxr ▸ List.mem_map_of_mem (fun y => y.task.id) hx)
      refine ⟨out, ?_, hlen.trans hlenset, ?_, ?_, ?_⟩
      · rw [placeResults, if_pos hr]
        exact hplace
      · intro x hx
        rcases List.mem_cons.mp hx with rfl | hx'
        · rw [huntouched _ (fun y hy => hfresh y hy)]
          exact List.getElem?_set_self (by omega)
        · exact hget x hx'
      · intro i hi
        rw [huntouched i (fun y hy => hi y (List.mem_cons_of_mem _ hy))]
        exact List.getElem?_set_ne (hi r (List.mem_cons_self r rest))
      · intro x hx
        rcases hmem x hx with h | h
        · rcases List.mem_or_eq_of_mem_set h with h' | h'
          · exact Or.inl h'
          · exact Or.inr (h' ▸ List.mem_cons_self r rest)
        · exact Or.inr (List.mem_cons_of_mem _ h)

/-- C2: if exactly the ids `0, …, N-1` arrive, in any order, the
Collector returns (no panic) a slice of length exactly `N` in which
position `i` holds the result whose task id is `i`. -/
theorem sortResults_restores_order (results : List Result) (N : ℕ)
    (hperm : List.Perm (results.map (fun r => r.task.id))
      ((List.range N).map (fun (k : ℕ) => (k : ℤ)))) :
    ∃ out, SortResults results N = some out ∧ out.length = N ∧
      ∀ r ∈ results, out[r.task.id.toNat]? = some r := by
  have hrange : ∀ r ∈ results, 0 ≤ r.task.id ∧ r.task.id < (N : ℤ) := by
    intro r hr
    have hm : r.task.id ∈ (List.range N).map (fun (k : ℕ) => (k : ℤ)) :=
      hperm.mem_iff.mp (List.mem_map_of_mem _ hr)
    rcases List.mem_map.mp hm with ⟨k, hk, hkeq⟩
    have := List.mem_range.mp hk
    omega
  have hnodup : (results.map (fun r => r.task.id)).Nodup :=
    hperm.nodup_iff.mpr ((List.nodup_range N).map Nat.cast_injective)
  obtain ⟨out0, hplace, hlen, hget, _, _⟩ :=
    placeResults_sound results (List.replicate N zeroResult)
      (by simpa using hrange) hnodup
  have hlen0 : out0.length = N := by simpa using hlen
  have hfill : ∀ i : ℕ, i < N → ∃ r ∈ results, r.task.id = (i : ℤ) := by
    intro i hi
    have hm : (i : ℤ) ∈ results.map (fun r => r.task.id) :=
      hperm.mem_iff.mpr (List.mem_map_of_mem _ (List.mem_range.mpr hi))
    rcases List.mem_map.mp hm with ⟨r, hr, hre⟩
    exact ⟨r, hr, hre⟩
  have hid : ∀ (i : ℕ) (h : i < out0.length), (out0[i]).task.id = (i : ℤ) := by
    intro i h
    obtain ⟨r, hr, hre⟩ := hfill i (hlen0 ▸ h)
    have hq := hget r hr
    rw [hre, show ((i : ℤ)).toNat = i from by omega,
      List.getElem?_eq_getElem h] at hq
    rw [Option.some.inj hq, hre]
  have hsorted : List.Pairwise (fun a b => resultLE a b = true) out0 := by
    rw [List.pairwise_iff_get]
    intro i j hij
    have hij' : i.1 < j.1 := hij
    simp only [resultLE, List.get_eq_getElem, hid i.1 i.2, hid j.1 j.2,
      decide_eq_true_eq]
    omega
  refine ⟨out0, ?_, hlen0, hget⟩
  unfold SortResults
  rw [hplace, Option.map_some', List.mergeSort_of_sorted hsorted]

/-- Witness for C2: two results with ids 1 and 0 arriving out of order
are returned in id order. -/
theorem sortResults_restores_order_witness :
    ∃ out, SortResults [⟨⟨1, 3⟩, some 6⟩, ⟨⟨0, 4⟩, some 24⟩] 2 = some out ∧
      out.length = 2 ∧
      ∀ r ∈ [(⟨⟨1, 3⟩, some 6⟩ : Result), ⟨⟨0, 4⟩, some 24⟩],
        out[r.task.id.toNat]? = some r :=
  sortResults_restores_order [⟨⟨1, 3⟩, some 6⟩, ⟨⟨0, 4⟩, some 24⟩] 2 (by decide)

/-- C10: if fewer than `N` results (with distinct in-range ids, e.g.
after a forced shutdown) arrive before the channel closes, `SortResults`
still returns — without panicking or reporting an error — a slice of
length exactly `N`: every position holds either a received result or
the zero-valued `Result` (task id 0, nil factorial), every received
result is present, and the stable sort places every zero-valued
placeholder before every result with a positive task id, so gaps are
silently repositioned rather than detected. -/
theorem sortResults_absorbs_shortfall (results : List Result) (N : ℕ)
    (hnodup : (results.map (fun r => r.task.id)).Nodup)
    (hrange : ∀ r ∈ results, 0 ≤ r.task.id ∧ r.task.id < (N : ℤ))
    (_hlt : results.length < N) :
    ∃ out, SortResults results N = some out ∧ out.length = N ∧
      (∀ x ∈ out, x = zeroResult ∨ x ∈ results) ∧
      (∀ r ∈ results, r ∈ out) ∧
      (∀ (i j : ℕ) (hi : i < out.length) (hj : j < out.length),
        out[i] = zeroResult → 0 < (out[j]).task.id → i < j) := by
  obtain ⟨out0, hplace, hlen, hget, _, hmem⟩ :=
    placeResults_sound results (List.replicate N zeroResult)
      (by simpa using hrange) hnodup
  have hlen0 : out0.length = N := by simpa using hlen
  have htrans : ∀ a b c : Result, resultLE a b → resultLE b c → resultLE a c := by
    intro a b c hab hbc
    simp only [resultLE, decide_eq_true_eq] at *
    omega
  have htotal : ∀ a b : Result, resultLE a b || resultLE b a := by
    intro a b
    simp only [resultLE, Bool.or_eq_true, decide_eq_true_eq]
    omega
  have hsorted := List.sorted_mergeSort htrans htotal out0
  have hperm : List.Perm (out0.mergeSort resultLE) out0 :=
    List.mergeSort_perm out0 resultLE
  refine ⟨out0.mergeSort resultLE, ?_, by rw [hperm.length_eq, hlen0], ?_, ?_, ?_⟩
  · unfold SortResults
    rw [hplace, Option.map_some']
  · intro x hx
    rcases hmem x (hperm.mem_iff.mp hx) with h | h
    · exact Or.inl (List.eq_of_mem_replicate h)
    · exact Or.inr h
  · intro r hr
    exact hperm.mem_iff.mpr (List.getElem?_mem (hget r hr))
  · intro i j hi hj hzero hpos
    have hps := List.pairwise_iff_getElem.mp hsorted
    by_contra hij
    push_neg at hij
    rcases Nat.eq_or_lt_of_le hij with heq | hlt2
    · have e1 : (out0.mergeSort resultLE)[i]? = some zeroResult := by
        rw [List.getElem?_eq_getElem hi, hzero]
      rw [← heq, List.getElem?_eq_getElem hj] at e1
      rw [Option.some.inj e1] at hpos
      simp [zeroResult] at hpos
    · have hle := hps j i hj hi hlt2
      simp only [resultLE, decide_eq_true_eq] at hle
      rw [hzero] at hle
      simp only [zeroResult] at hle
      omega

/-- Witness for C10: a single received result with id 1 and expected
count 2 is silently completed with a zero-valued placeholder at the
front. -/
theorem sortResults_absorbs_shortfall_witness :
    ∃ out, SortResults [⟨⟨1, 5⟩, some 120⟩] 2 = some out ∧ out.length = 2 ∧
      (∀ x ∈ out, x = zeroResult ∨ x ∈ [(⟨⟨1, 5⟩, some 120⟩ : Result)]) ∧
      (∀ r ∈ [(⟨⟨1, 5⟩, some 120⟩ : Result)], r ∈ out) ∧
      (∀ (i j : ℕ) (hi : i < out.length) (hj : j < out.length),
        out[i] = zeroResult → 0 < (out[j]).task.id → i < j) :=
  sortResults_absorbs_shortfall [⟨⟨1, 5⟩, some 120⟩] 2 (by decide) (by decide)
    (by decide)

/-- Amended C9: a computation failure (negative input, where the
factorial is undefined) does not crash the worker — a Result is always
emitted — and its value 0 is distinct from every genuine factorial
(all of which are at least 1), but the emitted outcome is exactly
`some 0`, the anomaly sentinel value, so a failure is conflated with an
anomaly rather than distinguishable from it. -/
theorem failure_outcome_is_sentinel (mt : ℕ) (t : Task) (d : ℕ) (ts : List ℕ)
    (hv : t.value < 0) :
    (processOne mt t d ts).1.factorial = some 0 ∧
    ∀ v : ℤ, 0 ≤ v → 1 ≤ calcFactorial v := by
  constructor
  · have h0 : calcFactorial t.value = 0 := by
      unfold calcFactorial
      rw [if_pos hv]
    unfold processOne
    dsimp only
    split
    · rfl
    · rw [h0]
  · intro v hv'
    unfold calcFactorial
    rw [if_neg (not_lt.mpr hv')]
    exact factLoop_pos v.toNat

/-- Witness for the amended C9: the failing input `-1` processed with a
warm history and no anomaly trigger still yields the sentinel value. -/
theorem failure_outcome_is_sentinel_witness :
    (processOne 20 ⟨0, -1⟩ 1 [0, 5]).1.factorial = some 0 :=
  (failure_outcome_is_sentinel 20 ⟨0, -1⟩ 1 [0, 5] (by decide)).1

/-- Counterexample to C9: processing the task with value `-1` on a cold
start (empty history, so no anomaly can fire) emits `Factorial = some 0` —
exactly the anomaly sentinel value, and equal to the outcome of a
genuine anomaly (second conjunct: value 3, average 1 ns, duration
100 ns). The failure outcome therefore equals the anomaly sentinel. -/
theorem failure_conflated_counterexample :
    (processOne 20 ⟨0, -1⟩ 1 []).1.factorial = some 0 ∧
    (processOne 20 ⟨1, 3⟩ 100 [1, 1]).1.factorial = some 0 := by
  constructor
  · decide
  · decide

end Konstruktor
